import Mathlib

/-!
Verification of the dhampyr validation library (shallow embedding).

The definitions below are translated from the Python sources:
`dhampyr/requirement.py`, `dhampyr/failures.py`, `dhampyr/converter.py`,
`dhampyr/api.py`.  Mutable dictionaries become association lists that keep
insertion order, Python `None` becomes `Option.none` (or an explicit `null`
constructor where the code stores `None` inside data), and exceptions
become `Except`/`Option` results.
-/

namespace Dhampyr

/-- A path segment: either a dictionary key (field name) or an index of an
iterable value (`failures.py`, `ValidationPath`). -/
abbrev Seg := Sum String Nat

/-- Failure values (`failures.py`).  A `leaf` is a plain `ValidationFailure`
carrying its `name` and `message`; `comp` is a `CompositeValidationFailure`
whose `failures` dictionary is an insertion-ordered association list from
keys (field name or index) to child failures. -/
inductive VFail where
  | leaf (name message : String)
  | comp (entries : List (Seg × VFail))
deriving Repr

/-- `MissingFailure` from `requirement.py`. -/
def missingFailure : VFail := .leaf "missing" "This value is required."

/-- `NullFailure` from `requirement.py`. -/
def nullFailure : VFail := .leaf "null" "This value must not be null."

/-- `EmptyFailure` from `requirement.py`. -/
def emptyFailure : VFail := .leaf "empty" "This value must not be empty."

/-- `MalformedFailure` from `failures.py` (message kept verbatim, including
the source's typo). -/
def malformedFailure : VFail :=
  .leaf "malformed" "Input of the validation suite is not like dictinoary."

/-- The members of the enum `RequirementPolicy` (`requirement.py`). -/
inductive RequirementPolicy where
  | FAIL
  | SKIP
  | CONTINUE
  | CONTEXTUAL
  | REQUIRES
deriving Repr, DecidableEq

/-- Applying a requirement policy: the functions `_fails`, `_skips`,
`_continue`, `_contextual` and `_requires` of `requirement.py`.  Each takes
an error factory and the `skip`/`allow` flags and returns a pair of an
optional failure and the flag to continue subsequent phases. -/
def RequirementPolicy.apply :
    RequirementPolicy → (Unit → VFail) → Bool → Bool → Option VFail × Bool
  | .FAIL, error, _, _ => (some (error ()), false)
  | .SKIP, _, _, _ => (none, false)
  | .CONTINUE, _, _, _ => (none, true)
  | .CONTEXTUAL, _, skip, _ => (none, !skip)
  | .REQUIRES, error, _, allow =>
      if allow then (none, false) else (some (error ()), false)

/-- Raw input values as seen by `Requirement.validate` (`requirement.py`).
`missing` is the `VALUE_MISSING` sentinel, `null` is Python `None`; strings,
byte sequences and lists/sets matter only through the emptiness checks of
`_check_empty`, every other value is `other`. -/
inductive RValue where
  | missing
  | null
  | str (s : String)
  | bytes (b : List Nat)
  | listv (elems : List Unit)
  | other
deriving Repr, DecidableEq

/-- `Requirement._check_empty`: empty string, empty byte sequence, empty
list/set. -/
def checkEmpty : RValue → Bool
  | .str s => s = ""
  | .bytes b => b.isEmpty
  | .listv xs => xs.isEmpty
  | _ => false

/-- The configuration fields of `ValidationConfiguration` that the embedded
code reads.  An `empty_specs` entry `(t, f)` of the source (a runtime type
together with a predicate or a literal) is modelled as the single Boolean
test it performs on a value. -/
structure Config where
  skip_null : Bool
  allow_null : Bool
  skip_empty : Bool
  allow_empty : Bool
  empty_specs : List (RValue → Bool)
  join_on_fail : Bool
  ignore_remainders : Bool
  key_filter : Option (String → String)

/-- `Requirement` (`requirement.py`): one policy each for missing, null and
empty values. -/
structure Requirement where
  missing : RequirementPolicy
  null : RequirementPolicy
  empty : RequirementPolicy
deriving Repr, DecidableEq

/-- `Requirement.validate` (`requirement.py`).  The missing policy is applied
with `(skip, allow) = (false, false)`, the null policy with the configured
null flags, and the empty policy — selected either by `_check_empty` or by
the first matching `empty_specs` entry — with the configured empty flags;
otherwise `(None, True)` is returned. -/
def Requirement.validate (req : Requirement) (value : RValue) (cfg : Config) :
    Option VFail × Bool :=
  match value with
  | .missing => req.missing.apply (fun _ => missingFailure) false false
  | .null => req.null.apply (fun _ => nullFailure) cfg.skip_null cfg.allow_null
  | v =>
      if checkEmpty v then
        req.empty.apply (fun _ => emptyFailure) cfg.skip_empty cfg.allow_empty
      else if cfg.empty_specs.any (fun f => f v) then
        req.empty.apply (fun _ => emptyFailure) cfg.skip_empty cfg.allow_empty
      else
        (none, true)

/-! ### `ValidationPath` (`failures.py`): rendering and parsing -/

/-- First character of the identifier group `[a-zA-Z_]` of
`PATH_ITEM_REGEXP`. -/
def identStart (c : Char) : Bool := c.isAlpha || c = '_'

/-- Continuation characters `[0-9a-zA-Z_]` of the identifier group. -/
def identCont (c : Char) : Bool := c.isAlphanum || c = '_'

/-- Numeric value of a decimal digit character. -/
def digitVal (c : Char) : Nat := c.toNat - 48

/-- `int(s)` on a non-empty string of decimal digits. -/
def digitsVal (cs : List Char) : Nat :=
  cs.foldl (fun acc c => acc * 10 + digitVal c) 0

/-- The decimal digit character for `d < 10`. -/
def digitChar : Nat → Char
  | 0 => '0' | 1 => '1' | 2 => '2' | 3 => '3' | 4 => '4'
  | 5 => '5' | 6 => '6' | 7 => '7' | 8 => '8' | _ => '9'

/-- Decimal rendering helper.  The first argument is structural fuel; any
value at least the digit count produces the rendering, and `natDigits`
supplies enough. -/
def natDigitsAux : Nat → Nat → List Char
  | 0, _ => []
  | fuel + 1, n =>
      if n < 10 then [digitChar n]
      else natDigitsAux fuel (n / 10) ++ [digitChar (n % 10)]

/-- Decimal rendering of a natural number (the characters of Python's
`f"{n}"`). -/
def natDigits (n : Nat) : List Char := natDigitsAux (n + 1) n

/-- Helper bound used by the termination arguments of the bracket-group
scanners below. -/
theorem dropWhile_length_le (p : α → Bool) : ∀ l : List α,
    (l.dropWhile p).length ≤ l.length
  | [] => Nat.le_refl _
  | c :: l => by
    simp only [List.dropWhile]
    split
    · exact Nat.le_trans (dropWhile_length_le p l) (Nat.le_succ _)
    · exact Nat.le_refl _

/-- Python `s.split(".")` on the character list of `s` (an empty string
yields one empty chunk). -/
def splitOnDot : List Char → List (List Char)
  | [] => [[]]
  | c :: rest =>
      if c = '.' then [] :: splitOnDot rest
      else
        match splitOnDot rest with
        | h :: t => (c :: h) :: t
        | [] => [[c]]

/-- Fuel-driven scanner for the group `((\[[0-9]+\])+)?` of
`PATH_ITEM_REGEXP` together with the index extraction
`map(int, indexes[1:-1].split("]["))`: collects the indices of the maximal
leading run of complete `[digits]` groups.  Each recursive step consumes at
least one character, so fuel equal to the input length is enough. -/
def parseBracketsF : Nat → List Char → List Nat
  | 0, _ => []
  | _ + 1, [] => []
  | fuel + 1, c :: rest =>
      if c = '[' then
        if (rest.takeWhile Char.isDigit).isEmpty then []
        else
          match rest.dropWhile Char.isDigit with
          | d :: rest2 =>
              if d = ']' then
                digitsVal (rest.takeWhile Char.isDigit) :: parseBracketsF fuel rest2
              else []
          | [] => []
      else []

/-- The indices of the maximal leading run of complete `[digits]` groups. -/
def parseBrackets (cs : List Char) : List Nat := parseBracketsF cs.length cs

/-- `parse_index` of `ValidationPath.of`: the greedy identifier prefix
(group 1 of `PATH_ITEM_REGEXP`), if any, followed by the parsed bracket
indices. -/
def parseSegment (cs : List Char) : List Seg :=
  match cs with
  | c :: rest =>
      if identStart c then
        Sum.inl (String.mk (c :: rest.takeWhile identCont)) ::
          (parseBrackets (rest.dropWhile identCont)).map Sum.inr
      else
        (parseBrackets cs).map Sum.inr
  | [] => []

/-- `ValidationPath.of` (`failures.py`): split the textual path on `"."` and
concatenate the parses of the chunks. -/
def ofChars (cs : List Char) : List Seg :=
  (splitOnDot cs).flatMap parseSegment

/-- The characters the function `at` (`failures.py`) emits for a segment at
a non-leading position: names are prefixed with `"."`, indices are enclosed
in brackets. -/
def atTail (segs : List Seg) : List Char :=
  segs.flatMap fun s =>
    match s with
    | .inl name => '.' :: name.data
    | .inr n => '[' :: (natDigits n ++ [']'])

/-- The function `at` (`failures.py`), the textual rendering of a path: the
leading segment drops the `"."` prefix when it is a name. -/
def atChars : List Seg → List Char
  | [] => []
  | .inl name :: rest => name.data ++ atTail rest
  | .inr n :: rest => ('[' :: (natDigits n ++ [']'])) ++ atTail rest

/-- A field name matching the identifier shape `[A-Za-z_][A-Za-z0-9_]*`. -/
def isIdent (s : String) : Bool :=
  match s.data with
  | [] => false
  | c :: cs => identStart c && cs.all identCont

/-- Paths built purely from identifier-like field names and non-negative
integer indices. -/
def goodPath (segs : List Seg) : Bool :=
  segs.all fun s =>
    match s with
    | .inl name => isIdent name
    | .inr _ => true

/-- Fuel-driven recognizer of `("[" integer "]")*`; fuel equal to the input
length is enough. -/
def bracketGroupsF : Nat → List Char → Bool
  | _, [] => true
  | 0, _ => false
  | fuel + 1, c :: rest =>
      if c = '[' then
        if (rest.takeWhile Char.isDigit).isEmpty then false
        else
          match rest.dropWhile Char.isDigit with
          | d :: rest2 => if d = ']' then bracketGroupsF fuel rest2 else false
          | [] => false
      else false

/-- A chunk of the path-string grammar of the spec:
`segment = identifier? ("[" integer "]")*` — the optional identifier
followed by zero or more complete bracket groups, with nothing left over. -/
def wfChunk (cs : List Char) : Bool :=
  let afterIdent :=
    match cs with
    | c :: rest => if identStart c then rest.dropWhile identCont else cs
    | [] => cs
  bracketGroupsF afterIdent.length afterIdent

/-- A well-formed path string per the spec grammar:
`path = segment ("." segment)*`. -/
def wellFormedStr (cs : List Char) : Bool :=
  (splitOnDot cs).all wfChunk

/-- `VerifierMethod.fulfill_dependencies` (`api.py`).  `positive` and
`negative` are the dependency keys mapped to `True` and `False` in the
`dependencies` map of the `@validate` decorator; `failureKeys` are the keys
of the failures collected so far.  Returns whether the verifier method is
invoked. -/
def fulfillDependencies (positive negative failureKeys : List String) : Bool :=
  if negative.any (fun k => failureKeys.contains k) then false
  else if !positive.isEmpty && !(positive.any (fun k => failureKeys.contains k)) then
    true
  else failureKeys.isEmpty

/-- The invocation condition as the spec words it, formalized for comparison
with `fulfillDependencies`: no `false`-gated key has a failure, and either
the dependency map has `true`-gated keys at least one of which has no
failure, or the dependency map is empty and there are zero prior
failures. -/
def specVerifierCondition (positive negative failureKeys : List String) : Bool :=
  (negative.all fun k => !failureKeys.contains k) &&
    ((!positive.isEmpty && positive.any fun k => !failureKeys.contains k) ||
      (positive.isEmpty && negative.isEmpty && failureKeys.isEmpty))

/-- Converted-value domain for the converter embedding (`converter.py`).
Python `None` is `null`; integers, strings and lists cover the values the
claims exercise. -/
inductive CVal where
  | null
  | int (n : Int)
  | str (s : String)
  | list (xs : List CVal)
deriving Repr

/-- The element conversion closure `conv` inside `Converter.convert`
(`converter.py`): apply the conversion function and turn any raised failure
into the `(None, failure)` pair. -/
def convElem (cc : CVal → Except VFail CVal) (v : CVal) : CVal × Option VFail :=
  match cc v with
  | .ok x => (x, none)
  | .error f => (.null, some f)

/-- The `(index, failure)` pairs `Converter.convert` collects from the
per-element results in iterable mode. -/
def iterFailures (cc : CVal → Except VFail CVal) (xs : List CVal) :
    List (Nat × VFail) :=
  (xs.map (convElem cc)).enum.filterMap fun iv => iv.2.2.map fun f => (iv.1, f)

/-- `Converter.convert` in iterable mode (`converter.py`): convert each
element and collect indexed failures; if none failed return the mapped
list, otherwise build the composite failure and — when a context was passed
and its `join_on_fail` is disabled — return the partial list with nulls at
failed positions, else return null.  `joinCtx` is `none` when no context is
passed and `some join_on_fail` otherwise. -/
def convertIter (cc : CVal → Except VFail CVal) (joinCtx : Option Bool)
    (xs : List CVal) : CVal × Option VFail :=
  let results := xs.map (convElem cc)
  if (iterFailures cc xs).isEmpty then (CVal.list (results.map Prod.fst), none)
  else
    let composite := VFail.comp ((iterFailures cc xs).map fun p => (Sum.inr p.1, p.2))
    if joinCtx = some false then
      (CVal.list (results.map fun vf => if vf.2.isSome then CVal.null else vf.1),
        some composite)
    else (CVal.null, some composite)

/-- The built-in `int` conversion (`builtins.py`, `convert_int`) on the
value shapes exercised here: an int passes through, a string of decimal
digits parses, any other value raises, which `Converter.convert` wraps into
a failure named after the converter (`"int"`). -/
def intConv : CVal → Except VFail CVal
  | .int n => .ok (.int n)
  | .str s =>
      if s.data.isEmpty then
        .error (.leaf "int" ("invalid literal for int() with base 10: '" ++ s ++ "'"))
      else if s.data.all Char.isDigit then
        .ok (.int (digitsVal s.data))
      else
        .error (.leaf "int" ("invalid literal for int() with base 10: '" ++ s ++ "'"))
  | _ => .error (.leaf "int" "int() argument is not convertible")

/-! ### `CompositeValidationFailure` access (`failures.py`) -/

/-- Python truthiness of a failure (`failures.py`, `__len__`): a plain
failure counts one, a composite counts its stored failures. -/
def vfTruthy : VFail → Bool
  | .leaf _ _ => true
  | .comp es => !es.isEmpty

/-- Lookup in the `failures` dictionary of a composite (first binding of the
key, as in a Python dict with unique keys). -/
def lookupEntry : List (Seg × VFail) → Seg → Option VFail
  | [], _ => none
  | (k', f) :: rest, k => if k' = k then some f else lookupEntry rest k

/-- The walk of `CompositeValidationFailure.__contains__` for a parsed path
(`failures.py`): descend through the `failures` dictionaries and fail as
soon as a segment is absent or a non-composite is entered. -/
def compContainsPath : VFail → List Seg → Bool
  | _, [] => true
  | .comp es, p :: rest =>
      match lookupEntry es p with
      | some f => compContainsPath f rest
      | none => false
  | .leaf _ _, _ :: _ => false

/-- `key in failure` (`failures.py`): `ValidationFailure.__contains__` is
always false; the composite parses a string key as a path and walks it, and
looks an integer key up directly. -/
def vfContains : VFail → Seg → Bool
  | .leaf _ _, _ => false
  | .comp es, .inl s => compContainsPath (.comp es) (ofChars s.data)
  | .comp es, .inr i => (lookupEntry es (.inr i)).isSome

mutual

/-- `failure[key]` (`failures.py`): `ValidationFailure.__getitem__` returns
`None`; the composite looks an integer key up directly and parses a string
key as a path and folds over it.  `fuel` only bounds the nesting of
re-parsing recursion; any value beyond the needed depth gives the same
result. -/
def vfGet : Nat → VFail → Seg → Option VFail
  | _, .leaf _ _, _ => none
  | _, .comp es, .inr i => lookupEntry es (.inr i)
  | 0, .comp _, .inl _ => none
  | fuel + 1, .comp es, .inl s => compGetPath fuel (.comp es) (ofChars s.data)
termination_by fuel _ _ => (fuel, 0, 0)

/-- The body of the string branch of
`CompositeValidationFailure.__getitem__`: the fold starts on the `failures`
dictionary itself — an empty dictionary is falsy, so the fold then keeps it
and the composite returns itself — and its first step moves to the failure
stored under the first segment (or Python `None`). -/
def compGetPath : Nat → VFail → List Seg → Option VFail
  | _, self, [] => some self
  | fuel, .comp es, p :: rest =>
      if es.isEmpty then some (.comp es)
      else compGetLoop fuel (lookupEntry es p) rest
  | _, .leaf n m, _ :: _ => none
termination_by fuel _ _ => (fuel, 2, 0)

/-- The remaining iterations of the fold
`f = f and (f[p] if p in f else None)`: `None` and falsy failures stick,
otherwise the next value is `f[p]` when `p in f` and `None` otherwise. -/
def compGetLoop : Nat → Option VFail → List Seg → Option VFail
  | _, st, [] => st
  | fuel, none, _ :: rest => compGetLoop fuel none rest
  | fuel, some f, p :: rest =>
      if vfTruthy f then
        compGetLoop fuel (if vfContains f p then vfGet fuel f p else none) rest
      else compGetLoop fuel (some f) rest
termination_by fuel _ path => (fuel, 1, path.length)

end

/-! ### The orchestrator `validate_dict` (`api.py`) -/

/-- The triple returned by `Validator.validate` and consumed by
`validate_dict` (`api.py`): the converted value (`none` stands for Python
`None`), the failure, and the `use_alt` flag telling the caller to fill in
a default. -/
structure VResult where
  validated : Option CVal
  failure : Option VFail
  useAlt : Bool

/-- One declared field as `validate_dict` sees it: the behaviour of its
`Validator` (the class carrying the three-phase `validate` is not part of
this snapshot of the source, so it stays an opaque function; its argument
is `none` for the `VALUE_MISSING` sentinel) and the factory's `alias`. -/
structure FieldSpec where
  validate : Option CVal → VResult
  aliasKey : Option String

/-- The effective input key of a field (`api.py`, `validate_dict`):
`key_filter(vf.alias or k)` with the identity as the default filter. -/
def keyOf (keyFilter : Option (String → String)) (k : String)
    (spec : FieldSpec) : String :=
  (keyFilter.getD id) (spec.aliasKey.getD k)

/-- The per-field merge of `validate_dict` (`api.py`): a non-null validated
value is written under the output field name, a failure is added to the
composite keyed by the output field name, and when `use_alt` is set the
default machinery `_put_default` — abstracted as `putDefault` — updates the
attribute map. -/
def mergeField (putDefault : String → List (String × CVal) → List (String × CVal))
    (st : List (String × CVal) × List (Seg × VFail)) (k : String) (r : VResult) :
    List (String × CVal) × List (Seg × VFail) :=
  let attrs := match r.validated with
    | some v => st.1 ++ [(k, v)]
    | none => st.1
  let fails := match r.failure with
    | some f => st.2 ++ [(Sum.inl k, f)]
    | none => st.2
  let attrs := if r.useAlt then putDefault k attrs else attrs
  (attrs, fails)

/-- Raw input of `validate_dict`: either a dictionary (an insertion-ordered
association list) or a value for which `dict_like` raises. -/
inductive RawInput where
  | dict (entries : List (String × CVal))
  | notDict

/-- The `validated_keys` set of `validate_dict`: the effective input keys
consumed by the declared validators. -/
def validatedKeys (keyFilter : Option (String → String))
    (fields : List (String × FieldSpec)) : List String :=
  fields.map fun ks => keyOf keyFilter ks.1 ks.2

/-- Result of `validate_dict`: the attribute map of the created instance
(`none` when no instance was built), the failure — the composite, or the
single `MalformedFailure` — and the context's remainder map. -/
structure OrcResult where
  validated : Option (List (String × CVal))
  failure : VFail
  remainders : List (String × CVal)

/-- `validate_dict` (`api.py`) with `share_context` disabled (the default):
build an accessor for the raw value or short-circuit with
`MalformedFailure`; for each declared field fetch the value by its
effective key (the `VALUE_MISSING` sentinel, `none`, when the key is
absent), run its `Validator` and merge the triple; unless
`ignore_remainders`, store every input key not consumed by a validator in
the context's remainders with its input value.  The post-hoc
verifier-method phase is modelled separately by `fulfillDependencies`. -/
def validateDict (fields : List (String × FieldSpec)) (raw : RawInput)
    (ignoreRemainders : Bool) (keyFilter : Option (String → String))
    (putDefault : String → List (String × CVal) → List (String × CVal)) :
    OrcResult :=
  match raw with
  | .notDict => ⟨none, malformedFailure, []⟩
  | .dict entries =>
      let step := fun st (ks : String × FieldSpec) =>
        let key := keyOf keyFilter ks.1 ks.2
        let val : Option CVal := entries.lookup key
        mergeField putDefault st ks.1 (ks.2.validate val)
      let res := fields.foldl step ([], [])
      let rems :=
        if ignoreRemainders then []
        else entries.filter fun kv => !(validatedKeys keyFilter fields).contains kv.1
      ⟨some res.1, VFail.comp res.2, rems⟩

/-- `ValidationPath.under` (`failures.py`): length comparison plus pairwise
equality over `zip`. -/
def under (p q : List Seg) : Bool :=
  decide (q.length ≤ p.length) && (p.zip q).all fun so => decide (so.1 = so.2)

/-! ### Supporting lemmas for the path development -/

theorem digitsVal_append (ds : List Char) (c : Char) :
    digitsVal (ds ++ [c]) = digitsVal ds * 10 + digitVal c := by
  simp [digitsVal, List.foldl_append]

theorem digitChar_isDigit (d : Nat) : (digitChar d).isDigit = true := by
  rcases d with _|_|_|_|_|_|_|_|_|_ <;> rfl

theorem digitVal_digitChar (d : Nat) (h : d < 10) :
    digitVal (digitChar d) = d := by
  rcases d with _|_|_|_|_|_|_|_|_|d
  case succ.succ.succ.succ.succ.succ.succ.succ.succ =>
    have : d = 0 := by omega
    subst this
    rfl
  all_goals rfl

theorem natDigitsAux_spec : ∀ (fuel n : Nat), n < fuel →
    natDigitsAux fuel n ≠ [] ∧ (∀ c ∈ natDigitsAux fuel n, c.isDigit = true) ∧
      digitsVal (natDigitsAux fuel n) = n := by
  intro fuel
  induction fuel with
  | zero => intro n h; omega
  | succ fuel ih =>
    intro n h
    by_cases h10 : n < 10
    · simp only [natDigitsAux, if_pos h10]
      refine ⟨by simp, ?_, ?_⟩
      · intro c hc
        simp at hc
        subst hc
        exact digitChar_isDigit n
      · simpa [digitsVal] using digitVal_digitChar n h10
    · simp only [natDigitsAux, if_neg h10]
      have hd : n / 10 < fuel := by
        have := Nat.div_lt_self (show 0 < n by omega) (show 1 < 10 by omega)
        omega
      obtain ⟨h1, h2, h3⟩ := ih (n / 10) hd
      refine ⟨by simp, ?_, ?_⟩
      · intro c hc
        rcases List.mem_append.mp hc with hc | hc
        · exact h2 c hc
        · simp at hc
          subst hc
          exact digitChar_isDigit _
      · rw [digitsVal_append, h3, digitVal_digitChar _ (Nat.mod_lt _ (by omega))]
        omega

theorem natDigits_spec (n : Nat) :
    natDigits n ≠ [] ∧ (∀ c ∈ natDigits n, c.isDigit = true) ∧
      digitsVal (natDigits n) = n :=
  natDigitsAux_spec (n + 1) n (Nat.lt_succ_self n)

theorem isDigit_ne_dot {c : Char} (h : c.isDigit = true) : c ≠ '.' := by
  intro he
  subst he
  simp [Char.isDigit] at h

theorem isDigit_ne_rbracket {c : Char} (h : c.isDigit = true) : c ≠ ']' := by
  intro he
  subst he
  simp [Char.isDigit] at h

theorem identCont_ne_dot {c : Char} (h : identCont c = true) : c ≠ '.' := by
  intro he
  subst he
  simp [identCont, Char.isAlphanum, Char.isAlpha, Char.isUpper, Char.isLower,
    Char.isDigit] at h

theorem identStart_ne_dot {c : Char} (h : identStart c = true) : c ≠ '.' := by
  intro he
  subst he
  simp [identStart, Char.isAlpha, Char.isUpper, Char.isLower] at h

theorem identCont_lbracket : identCont '[' = false := by decide

theorem identStart_lbracket : identStart '[' = false := by decide

theorem isDigit_identCont {c : Char} (h : c.isDigit = true) : identCont c = true := by
  simp [identCont, Char.isAlphanum, h]

/-- `takeWhile`/`dropWhile` on a block that wholly satisfies the predicate
followed by a stopper. -/
theorem takeWhile_dropWhile_append (p : Char → Bool) :
    ∀ (ds l : List Char), (∀ c ∈ ds, p c = true) →
      (∀ x, l.head? = some x → p x = false) →
      (ds ++ l).takeWhile p = ds ∧ (ds ++ l).dropWhile p = l
  | [], l, _, hl => by
    cases l with
    | nil => simp
    | cons x t =>
      have := hl x rfl
      simp [List.takeWhile, List.dropWhile, this]
  | d :: ds, l, hds, hl => by
    have hd : p d = true := hds d (by simp)
    obtain ⟨ht, hdr⟩ := takeWhile_dropWhile_append p ds l
      (fun c hc => hds c (by simp [hc])) hl
    simp [List.takeWhile, List.dropWhile, hd, ht, hdr]

/-- The bracket scanner ignores surplus fuel. -/
theorem parseBracketsF_fuel : ∀ (f1 f2 : Nat) (cs : List Char),
    cs.length ≤ f1 → cs.length ≤ f2 →
    parseBracketsF f1 cs = parseBracketsF f2 cs := by
  intro f1
  induction f1 with
  | zero =>
    intro f2 cs h1 _
    have : cs = [] := List.eq_nil_of_length_eq_zero (Nat.le_zero.mp h1)
    subst this
    cases f2 <;> rfl
  | succ f1 ih =>
    intro f2 cs h1 h2
    cases cs with
    | nil => cases f2 <;> rfl
    | cons c rest =>
      cases f2 with
      | zero => simp at h2
      | succ f2 =>
        simp only [parseBracketsF]
        by_cases hc : c = '['
        · rw [if_pos hc, if_pos hc]
          by_cases hds : (rest.takeWhile Char.isDigit).isEmpty
          · rw [if_pos hds, if_pos hds]
          · rw [if_neg hds, if_neg hds]
            cases hdw : rest.dropWhile Char.isDigit with
            | nil => rfl
            | cons d rest2 =>
              simp only
              by_cases hd : d = ']'
              · rw [if_pos hd, if_pos hd]
                have hlen : rest2.length + 1 ≤ rest.length := by
                  have := dropWhile_length_le Char.isDigit rest
                  rw [hdw] at this
                  simpa using this
                simp only [List.length_cons] at h1 h2
                rw [ih f2 rest2 (by omega) (by omega)]
              · rw [if_neg hd, if_neg hd]
        · rw [if_neg hc, if_neg hc]

/-- Scanning one complete bracket group peels off its index. -/
theorem parseBrackets_bracket (n : Nat) (l : List Char) :
    parseBrackets ('[' :: (natDigits n ++ (']' :: l))) = n :: parseBrackets l := by
  obtain ⟨hne, hdig, hval⟩ := natDigits_spec n
  obtain ⟨htake, hdrop⟩ := takeWhile_dropWhile_append Char.isDigit (natDigits n)
    (']' :: l) hdig (by intro x hx; simp at hx; subst hx; rfl)
  unfold parseBrackets
  rw [List.length_cons]
  simp only [parseBracketsF, if_true]
  rw [if_neg (by simp [htake, hne]), hdrop]
  simp only [if_true]
  rw [htake, hval]
  congr 1
  exact parseBracketsF_fuel _ _ l (by simp; omega) (Nat.le_refl _)

/-- A chunk that is empty or starts with `'['` has no identifier part. -/
theorem parseSegment_bracketish (l : List Char)
    (hl : l = [] ∨ ∃ t, l = '[' :: t) :
    parseSegment l = (parseBrackets l).map Sum.inr := by
  rcases hl with rfl | ⟨t, rfl⟩
  · simp [parseSegment, parseBrackets, parseBracketsF]
  · simp [parseSegment, identStart_lbracket]

/-- Parsing an identifier followed by a bracketish remainder. -/
theorem parseSegment_ident (s : String) (hs : isIdent s = true) (l : List Char)
    (hl : l = [] ∨ ∃ t, l = '[' :: t) :
    parseSegment (s.data ++ l) = Sum.inl s :: (parseBrackets l).map Sum.inr := by
  obtain ⟨c, cs, hdata⟩ : ∃ c cs, s.data = c :: cs := by
    rcases hds : s.data with _ | ⟨c, cs⟩
    · rw [isIdent, hds] at hs
      simp at hs
    · exact ⟨c, cs, rfl⟩
  rw [isIdent, hdata] at hs
  simp only [Bool.and_eq_true, List.all_eq_true] at hs
  obtain ⟨hc, hcs⟩ := hs
  obtain ⟨htake, hdrop⟩ := takeWhile_dropWhile_append identCont cs l hcs
    (by
      intro x hx
      rcases hl with rfl | ⟨t, rfl⟩
      · simp at hx
      · simp at hx
        subst hx
        exact identCont_lbracket)
  have hmk : String.mk (c :: cs) = s := by
    cases s
    simp at hdata
    rw [hdata]
  rw [hdata, List.cons_append, parseSegment]
  simp [hc, htake, hdrop, hmk]

theorem splitOnDot_ne_nil : ∀ l : List Char, splitOnDot l ≠ []
  | [] => by simp [splitOnDot]
  | c :: rest => by
    simp only [splitOnDot]
    split
    · simp
    · split <;> simp

/-- Prepending dot-free characters extends the first chunk. -/
theorem splitOnDot_append (a l : List Char) (h : List Char)
    (t : List (List Char))
    (ha : ∀ c ∈ a, c ≠ '.') (hsplit : splitOnDot l = h :: t) :
    splitOnDot (a ++ l) = (a ++ h) :: t := by
  induction a with
  | nil => simpa using hsplit
  | cons c a ih =>
    have hc : c ≠ '.' := ha c (by simp)
    have := ih (fun x hx => ha x (by simp [hx]))
    simp only [List.cons_append, splitOnDot, if_neg hc, List.append_eq, this]

theorem ident_no_dot {s : String} (hs : isIdent s = true) :
    ∀ c ∈ s.data, c ≠ '.' := by
  intro c hc
  rcases hd : s.data with _ | ⟨x, xs⟩
  · rw [hd] at hc
    simp at hc
  · rw [isIdent, hd] at hs
    simp only [Bool.and_eq_true, List.all_eq_true] at hs
    rw [hd] at hc
    rcases List.mem_cons.mp hc with rfl | hc
    · exact identStart_ne_dot hs.1
    · exact identCont_ne_dot (hs.2 c hc)

theorem bracket_no_dot (n : Nat) :
    ∀ c ∈ '[' :: (natDigits n ++ [']']), c ≠ '.' := by
  intro c hc
  rcases List.mem_cons.mp hc with rfl | hc
  · decide
  · rcases List.mem_append.mp hc with hc | hc
    · exact isDigit_ne_dot ((natDigits_spec n).2.1 c hc)
    · simp at hc
      subst hc
      decide

/-- The chunk decomposition of a rendered tail: splitting the rendering of
`atTail segs` on dots gives a first chunk that is empty or bracketish, and
parsing the chunks gives back `segs`. -/
theorem ofTail_spec : ∀ segs : List Seg, goodPath segs = true →
    ∃ (h : List Char) (t : List (List Char)),
      splitOnDot (atTail segs) = h :: t ∧
      (h = [] ∨ ∃ t', h = '[' :: t') ∧
      (h :: t).flatMap parseSegment = segs
  | [], _ => ⟨[], [], by simp [atTail, splitOnDot], Or.inl rfl, by simp [parseSegment]⟩
  | Sum.inl name :: rest, hgood => by
    rw [goodPath, List.all_cons, Bool.and_eq_true] at hgood
    have hname : isIdent name = true := hgood.1
    have hrest : goodPath rest = true := hgood.2
    obtain ⟨h, t, hsplit, hb, hflat⟩ := ofTail_spec rest hrest
    have hsplit2 : splitOnDot (name.data ++ atTail rest) = (name.data ++ h) :: t :=
      splitOnDot_append _ _ _ _ (ident_no_dot hname) hsplit
    have hatl : atTail (Sum.inl name :: rest) = '.' :: (name.data ++ atTail rest) := by
      simp [atTail]
    refine ⟨[], (name.data ++ h) :: t, ?_, Or.inl rfl, ?_⟩
    · rw [hatl, splitOnDot]
      simp [hsplit2]
    · have hps : parseSegment (name.data ++ h) =
          Sum.inl name :: (parseBrackets h).map Sum.inr :=
        parseSegment_ident name hname h hb
      have hph : parseSegment h = (parseBrackets h).map Sum.inr :=
        parseSegment_bracketish h hb
      simp only [List.flatMap_cons] at hflat ⊢
      rw [hph] at hflat
      rw [hps]
      simp only [parseSegment, List.nil_append, List.cons_append]
      rw [hflat]
  | Sum.inr n :: rest, hgood => by
    rw [goodPath, List.all_cons, Bool.and_eq_true] at hgood
    have hrest : goodPath rest = true := hgood.2
    obtain ⟨h, t, hsplit, hb, hflat⟩ := ofTail_spec rest hrest
    have hsplit2 : splitOnDot (('[' :: (natDigits n ++ [']'])) ++ atTail rest) =
        (('[' :: (natDigits n ++ [']'])) ++ h) :: t :=
      splitOnDot_append _ _ _ _ (bracket_no_dot n) hsplit
    have hatl : atTail (Sum.inr n :: rest) =
        ('[' :: (natDigits n ++ [']'])) ++ atTail rest := by
      simp [atTail]
    have hchunk : ('[' :: (natDigits n ++ [']'])) ++ h =
        '[' :: (natDigits n ++ (']' :: h)) := by
      simp
    refine ⟨('[' :: (natDigits n ++ [']'])) ++ h, t, ?_, Or.inr ⟨_, rfl⟩, ?_⟩
    · rw [hatl, hsplit2]
    · have hph : parseSegment h = (parseBrackets h).map Sum.inr :=
        parseSegment_bracketish h hb
      have hps : parseSegment (('[' :: (natDigits n ++ [']'])) ++ h) =
          Sum.inr n :: (parseBrackets h).map Sum.inr := by
        rw [hchunk, parseSegment_bracketish _ (Or.inr ⟨_, rfl⟩),
          parseBrackets_bracket]
        rfl
      simp only [List.flatMap_cons] at hflat ⊢
      rw [hph] at hflat
      rw [hps]
      simp only [List.cons_append]
      rw [hflat]

/-- Rendering then parsing is the identity on identifier/index paths. -/
theorem ofChars_atChars (segs : List Seg) (hgood : goodPath segs = true) :
    ofChars (atChars segs) = segs := by
  obtain ⟨h, t, hsplit, _, hflat⟩ := ofTail_spec segs hgood
  cases segs with
  | nil => rfl
  | cons x rest =>
    cases x with
    | inl name =>
      have hatl : atTail (Sum.inl name :: rest) =
          '.' :: atChars (Sum.inl name :: rest) := by
        simp [atTail, atChars]
      rw [hatl, splitOnDot] at hsplit
      simp only [if_pos rfl] at hsplit
      cases hsplit' : splitOnDot (atChars (Sum.inl name :: rest)) with
      | nil => exact absurd hsplit' (splitOnDot_ne_nil _)
      | cons h' t' =>
        rw [hsplit'] at hsplit
        injection hsplit with e1 e2
        rw [ofChars, hsplit']
        rw [← hflat, ← e2]
        subst e1
        simp [parseSegment]
    | inr n =>
      have hatl : atChars (Sum.inr n :: rest) = atTail (Sum.inr n :: rest) := by
        simp [atTail, atChars]
      rw [ofChars, hatl, hsplit, hflat]

end Dhampyr

namespace Dhampyr

/-- C1: For every combination of `RequirementPolicy` and boolean flags
`(skip, allow)`, applying the policy to an error factory returns exactly the
pair of the spec table: `FAIL ↦ (error, false)`, `SKIP ↦ (null, false)`,
`CONTINUE ↦ (null, true)`, `CONTEXTUAL ↦ (null, ¬skip)`, and `REQUIRES`
returns `(null, false)` when `allow` holds and `(error, false)` otherwise. -/
theorem requirementPolicy_table (error : Unit → VFail) (skip allow : Bool) :
    RequirementPolicy.apply .FAIL error skip allow = (some (error ()), false) ∧
    RequirementPolicy.apply .SKIP error skip allow = (none, false) ∧
    RequirementPolicy.apply .CONTINUE error skip allow = (none, true) ∧
    RequirementPolicy.apply .CONTEXTUAL error skip allow = (none, !skip) ∧
    (allow = true →
      RequirementPolicy.apply .REQUIRES error skip allow = (none, false)) ∧
    (allow = false →
      RequirementPolicy.apply .REQUIRES error skip allow = (some (error ()), false)) := by
  refine ⟨rfl, rfl, rfl, rfl, ?_, ?_⟩ <;> intro h <;> subst h <;> rfl

/-- C1 witness: the table evaluated at a concrete error factory and concrete
flags. -/
theorem requirementPolicy_table_witness :
    (true : Bool) = true ∧
    RequirementPolicy.apply .REQUIRES (fun _ => missingFailure) false true = (none, false) :=
  ⟨rfl, (requirementPolicy_table (fun _ => missingFailure) false true).2.2.2.2.1 rfl⟩

/-- C10: `Requirement.validate` never returns a failure together with
permission to continue: whenever the returned failure is non-null the
returned continue flag is `false`. -/
theorem requirement_validate_fail_stops (req : Requirement) (value : RValue)
    (cfg : Config) (h : (req.validate value cfg).1.isSome = true) :
    (req.validate value cfg).2 = false := by
  have policyCase : ∀ (p : RequirementPolicy) (e : Unit → VFail) (s a : Bool),
      (p.apply e s a).1.isSome = true → (p.apply e s a).2 = false := by
    intro p e s a hp
    cases p <;> simp [RequirementPolicy.apply] at hp ⊢
    split <;> simp_all [RequirementPolicy.apply]
  have branches : (∃ (p : RequirementPolicy) (e : Unit → VFail) (s a : Bool),
      req.validate value cfg = p.apply e s a) ∨ req.validate value cfg = (none, true) := by
    cases value
    · exact Or.inl ⟨_, _, _, _, rfl⟩
    · exact Or.inl ⟨_, _, _, _, rfl⟩
    all_goals
      simp only [Requirement.validate]
      split
      · exact Or.inl ⟨_, _, _, _, rfl⟩
      · split
        · exact Or.inl ⟨_, _, _, _, rfl⟩
        · exact Or.inr rfl
  rcases branches with ⟨p, e, s, a, hb⟩ | hb
  · rw [hb] at h ⊢
    exact policyCase _ _ _ _ h
  · rw [hb] at h
    simp at h

/-- C9: `p.under(q)` returns `true` exactly when `q`'s segment sequence is a
prefix of `p`'s segment sequence. -/
theorem under_iff_prefix (p q : List Seg) : under p q = true ↔ q <+: p := by
  induction p generalizing q with
  | nil => cases q <;> simp [under]
  | cons a p ih =>
    cases q with
    | nil => simp [under]
    | cons b q =>
      have : under (a :: p) (b :: q) = (decide (a = b) && under p q) := by
        simp only [under, List.zip_cons_cons, List.all_cons, List.length_cons]
        rw [Bool.and_comm (decide (a = b)), ← Bool.and_assoc, Bool.and_comm _ (decide (a = b))]
        simp [Nat.succ_le_succ_iff, Bool.and_assoc]
      rw [this, List.cons_prefix_cons]
      constructor
      · intro hab
        simp only [Bool.and_eq_true, decide_eq_true_eq] at hab
        exact ⟨hab.1.symm, (ih q).mp hab.2⟩
      · rintro ⟨h1, h2⟩
        simp only [Bool.and_eq_true, decide_eq_true_eq]
        exact ⟨h1.symm, (ih q).mpr h2⟩

/-- C5 counterexample: the string `"a.[0]"` is well-formed for the spec's
path grammar (`segment ("." segment)*` with `segment = identifier? ("["
integer "]")*`), yet parsing it and rendering the result yields `"a[0]"`,
so `str(ValidationPath.of(s)) == s` fails on it: the claim's second half is
false as stated for well-formed strings. -/
theorem path_roundtrip_counterexample :
    wellFormedStr "a.[0]".data = true ∧
    atChars (ofChars "a.[0]".data) ≠ "a.[0]".data := by
  constructor
  · decide
  · decide

/-- C5 (amended): parsing is a left inverse of rendering — for every path
built from identifier-like field names and non-negative indices,
`ValidationPath.of(str(p))` has the same segment sequence as `p`; and
`str(ValidationPath.of(s)) == s` holds for every string `s` that is the
canonical rendering of such a path (not for every well-formed string of the
grammar). -/
theorem path_roundtrip (segs : List Seg) (s : List Char)
    (hgood : goodPath segs = true) (hs : s = atChars segs) :
    ofChars (atChars segs) = segs ∧ atChars (ofChars s) = s := by
  refine ⟨ofChars_atChars segs hgood, ?_⟩
  subst hs
  rw [ofChars_atChars segs hgood]

/-- C5 witness: the round trips evaluated on the concrete path `a[0].b`. -/
theorem path_roundtrip_witness :
    goodPath [Sum.inl "a", Sum.inr 0, Sum.inl "b"] = true ∧
    "a[0].b".data = atChars [Sum.inl "a", Sum.inr 0, Sum.inl "b"] ∧
    (ofChars (atChars [Sum.inl "a", Sum.inr 0, Sum.inl "b"]) =
        [Sum.inl "a", Sum.inr 0, Sum.inl "b"] ∧
      atChars (ofChars "a[0].b".data) = "a[0].b".data) :=
  ⟨by decide, by decide, path_roundtrip _ _ (by decide) (by decide)⟩

/-- C3 counterexample: with dependencies `{a: true, b: true}` and a collected
failure on `a` only, the claimed condition holds (at least one true-gated
key, `b`, has no failure and no false-gated key failed) but
`fulfill_dependencies` returns `false`: the code requires every true-gated
key to be failure-free. -/
theorem fulfillDependencies_counterexample :
    fulfillDependencies ["a", "b"] [] ["a"] = false ∧
    specVerifierCondition ["a", "b"] [] ["a"] = true := by
  decide

/-- C3 (amended): a post-hoc verifier method with dependency map `D` is
invoked against the collected failures exactly when no key of `D` mapped to
`false` has a failure, and either `D` has at least one key mapped to `true`
and none of those keys has a failure, or there are zero prior failures. -/
theorem fulfillDependencies_spec (positive negative failureKeys : List String) :
    fulfillDependencies positive negative failureKeys = true ↔
      ((∀ k ∈ negative, k ∉ failureKeys) ∧
        ((positive ≠ [] ∧ ∀ k ∈ positive, k ∉ failureKeys) ∨ failureKeys = [])) := by
  unfold fulfillDependencies
  by_cases hneg : negative.any (fun k => failureKeys.contains k) = true
  · rw [if_pos hneg]
    simp only [List.any_eq_true] at hneg
    obtain ⟨k, hk, hmem⟩ := hneg
    rw [List.elem_iff] at hmem
    constructor
    · intro h
      exact absurd h (by simp)
    · rintro ⟨hno, _⟩
      exact absurd hmem (hno k hk)
  · rw [if_neg hneg]
    have hnegP : ∀ k ∈ negative, k ∉ failureKeys := by
      intro k hk hmem
      exact hneg (List.any_eq_true.mpr ⟨k, hk, List.elem_iff.mpr hmem⟩)
    by_cases hpos : (!positive.isEmpty &&
        !(positive.any (fun k => failureKeys.contains k))) = true
    · rw [if_pos hpos]
      simp only [Bool.and_eq_true, Bool.not_eq_true', List.any_eq_false,
        List.isEmpty_eq_false] at hpos
      obtain ⟨hne, hany⟩ := hpos
      have hposP : ∀ k ∈ positive, k ∉ failureKeys := by
        intro k hk hmem
        exact hany k hk (List.elem_iff.mpr hmem)
      simp only [true_iff]
      exact ⟨hnegP, Or.inl ⟨hne, hposP⟩⟩
    · rw [if_neg hpos]
      simp only [Bool.and_eq_true, Bool.not_eq_true', List.any_eq_false,
        List.isEmpty_eq_false, not_and] at hpos
      simp only [List.isEmpty_iff]
      constructor
      · intro hemp
        exact ⟨hnegP, Or.inr hemp⟩
      · rintro ⟨_, hp | hemp⟩
        · refine absurd ?_ (hpos hp.1)
          intro k hk hcon
          exact hp.2 k hk (List.elem_iff.mp hcon)
        · exact hemp

/-- C4: in iterable conversion mode with at least one failing element, the
composite failure maps each failed index to its failure; with
`join_on_fail` enabled the converter returns `(null, composite)`, and with
`join_on_fail` disabled it returns a list of the input's length holding
null exactly at failed positions and the converted value at succeeded
positions, paired with the same composite. -/
theorem converter_iterable_failures (cc : CVal → Except VFail CVal)
    (xs : List CVal) (h : iterFailures cc xs ≠ []) :
    convertIter cc (some true) xs =
      (CVal.null,
        some (VFail.comp ((iterFailures cc xs).map fun p => (Sum.inr p.1, p.2)))) ∧
    (∃ outs,
      convertIter cc (some false) xs =
        (CVal.list outs,
          some (VFail.comp ((iterFailures cc xs).map fun p => (Sum.inr p.1, p.2)))) ∧
      outs.length = xs.length ∧
      ∀ i (hi : i < xs.length),
        (∀ f, cc (xs.get ⟨i, hi⟩) = .error f → outs.get? i = some CVal.null) ∧
        (∀ v, cc (xs.get ⟨i, hi⟩) = .ok v → outs.get? i = some v)) ∧
    (∀ i f, (i, f) ∈ iterFailures cc xs ↔
      ∃ hi : i < xs.length, cc (xs.get ⟨i, hi⟩) = .error f) := by
  have hne : (iterFailures cc xs).isEmpty ≠ true := by
    simpa [List.isEmpty_iff] using h
  refine ⟨?_, ?_, ?_⟩
  · simp only [convertIter]
    rw [if_neg hne, if_neg (by simp)]
  · refine ⟨(xs.map (convElem cc)).map fun vf => if vf.2.isSome then CVal.null
      else vf.1, ?_, by simp, ?_⟩
    · simp only [convertIter]
      rw [if_neg hne]
      simp
    · intro i hi
      have hbase : ((xs.map (convElem cc)).map fun vf =>
          if vf.2.isSome then CVal.null else vf.1).get? i =
          some (if (convElem cc (xs.get ⟨i, hi⟩)).2.isSome then CVal.null
            else (convElem cc (xs.get ⟨i, hi⟩)).1) := by
        rw [List.get?_map, List.get?_map, List.get?_eq_get hi]
        rfl
      constructor
      · intro f hf
        rw [hbase]
        simp only [List.get_eq_getElem] at hf
        simp [convElem, hf]
      · intro v hv
        rw [hbase]
        simp only [List.get_eq_getElem] at hv
        simp [convElem, hv]
  · intro i f
    constructor
    · intro hmem
      rw [iterFailures] at hmem
      obtain ⟨⟨j, vf⟩, hjin, hg⟩ := List.mem_filterMap.mp hmem
      obtain ⟨f', hf', heq⟩ := Option.map_eq_some'.mp hg
      cases heq
      have hget := List.mk_mem_enum_iff_get?.mp hjin
      rw [List.get?_map] at hget
      obtain ⟨x, hx, hcx⟩ := Option.map_eq_some'.mp hget
      have hi : j < xs.length := (List.get?_eq_some.mp hx).1
      refine ⟨hi, ?_⟩
      rw [List.get?_eq_get hi] at hx
      injection hx with hx
      rw [← hx] at hcx
      cases hcc : cc (xs.get ⟨j, hi⟩) with
      | ok v =>
        rw [convElem, hcc] at hcx
        rw [← hcx] at hf'
        simp at hf'
      | error g =>
        rw [convElem, hcc] at hcx
        rw [← hcx] at hf'
        simp at hf'
        rw [hf']
    · rintro ⟨hi, hcc⟩
      rw [iterFailures]
      refine List.mem_filterMap.mpr ⟨(i, convElem cc (xs.get ⟨i, hi⟩)), ?_, ?_⟩
      · refine List.mk_mem_enum_iff_get?.mpr ?_
        rw [List.get?_map, List.get?_eq_get hi]
        rfl
      · simp only [List.get_eq_getElem] at hcc
        simp [convElem, hcc]

/-- C4 witness: the int converter over `["1", "a", "3"]`, evaluated:
`join_on_fail=false` yields `([1, null, 3], composite{1: int-failure})` and
`join_on_fail=true` yields `(null, composite{1: int-failure})`. -/
theorem converter_iterable_failures_witness :
    iterFailures intConv [CVal.str "1", CVal.str "a", CVal.str "3"] ≠ [] ∧
    convertIter intConv (some false) [CVal.str "1", CVal.str "a", CVal.str "3"] =
      (CVal.list [CVal.int 1, CVal.null, CVal.int 3],
        some (VFail.comp [(Sum.inr 1,
          VFail.leaf "int" "invalid literal for int() with base 10: 'a'")])) ∧
    convertIter intConv (some true) [CVal.str "1", CVal.str "a", CVal.str "3"] =
      (CVal.null,
        some (VFail.comp [(Sum.inr 1,
          VFail.leaf "int" "invalid literal for int() with base 10: 'a'")])) := by
  have h : iterFailures intConv [CVal.str "1", CVal.str "a", CVal.str "3"] ≠ [] := by
    intro hc
    have he : iterFailures intConv [CVal.str "1", CVal.str "a", CVal.str "3"] =
        [(1, VFail.leaf "int" "invalid literal for int() with base 10: 'a'")] := rfl
    rw [he] at hc
    exact List.noConfusion hc
  have hmain := converter_iterable_failures intConv
    [CVal.str "1", CVal.str "a", CVal.str "3"] h
  exact ⟨h, rfl, hmain.1⟩

/-- C2 counterexample: a field whose `Validator` returns a successful result
with a null value (`validated = None`, no failure, no alternative
requested) is not written to the attribute map — `validate_dict` guards the
merge with `validated is not None`, so the output attribute map stays
empty. -/
theorem null_merge_counterexample :
    (FieldSpec.mk (fun _ => ⟨none, none, false⟩) none).validate
        (some CVal.null) = ⟨none, none, false⟩ ∧
    (validateDict [("a", FieldSpec.mk (fun _ => ⟨none, none, false⟩) none)]
        (.dict [("a", CVal.null)]) false none (fun _ attrs => attrs)).validated =
      some [] := by
  exact ⟨rfl, rfl⟩

/-- C2 (amended): in the merge step of `validate_dict`, a successful
validation writes the converted value to the attribute map only when the
value is non-null; a validated null value is not written (when no
alternative is requested the attribute map is left unchanged). -/
theorem merge_writes_iff_nonnull
    (pd : String → List (String × CVal) → List (String × CVal))
    (st : List (String × CVal) × List (Seg × VFail)) (k : String)
    (r : VResult) (halt : r.useAlt = false) :
    (∀ v, r.validated = some v → (mergeField pd st k r).1 = st.1 ++ [(k, v)]) ∧
    (r.validated = none → (mergeField pd st k r).1 = st.1) := by
  constructor
  · intro v hv
    simp [mergeField, hv, halt]
  · intro hv
    simp [mergeField, hv, halt]

/-- C2 amended-theorem witness: the merge step on a concrete non-null value
and on a concrete null value. -/
theorem merge_writes_iff_nonnull_witness :
    (VResult.mk (some (CVal.int 3)) none false).useAlt = false ∧
    (mergeField (fun _ a => a) ([], []) "a"
        (VResult.mk (some (CVal.int 3)) none false)).1 = [("a", CVal.int 3)] ∧
    (mergeField (fun _ a => a) ([], []) "b"
        (VResult.mk none none false)).1 = [] := by
  refine ⟨rfl, ?_, ?_⟩
  · exact (merge_writes_iff_nonnull (fun _ a => a) ([], []) "a"
      (VResult.mk (some (CVal.int 3)) none false) rfl).1 (CVal.int 3) rfl
  · exact (merge_writes_iff_nonnull (fun _ a => a) ([], []) "b"
      (VResult.mk none none false) rfl).2 rfl

/-- C7: with `ignore_remainders` disabled and `share_context` off (the
defaults), the context's remainder map after `validate_dict` contains
exactly the input entries whose keys no declared validator consumed; in
particular validating `{known: "1", extra: "z"}` against a schema declaring
only `known` leaves `{extra: "z"}`. -/
theorem remainders_exact :
    (∀ (fields : List (String × FieldSpec)) (entries : List (String × CVal))
        (kf : Option (String → String))
        (pd : String → List (String × CVal) → List (String × CVal))
        (k : String) (v : CVal),
      ((k, v) ∈ (validateDict fields (.dict entries) false kf pd).remainders ↔
        ((k, v) ∈ entries ∧ k ∉ validatedKeys kf fields))) ∧
    (validateDict
        [("known", FieldSpec.mk (fun _ => ⟨some (CVal.int 1), none, false⟩) none)]
        (.dict [("known", CVal.str "1"), ("extra", CVal.str "z")])
        false none (fun _ a => a)).remainders = [("extra", CVal.str "z")] := by
  constructor
  · intro fields entries kf pd k v
    simp only [validateDict, if_neg (by simp : ¬(false : Bool) = true)]
    rw [List.mem_filter]
    simp only [Bool.not_eq_true']
    constructor
    · rintro ⟨hin, hc⟩
      refine ⟨hin, ?_⟩
      intro hmem
      have hc2 : (validatedKeys kf fields).contains k = true :=
        List.elem_iff.mpr hmem
      rw [hc2] at hc
      exact Bool.noConfusion hc
    · rintro ⟨hin, hnot⟩
      refine ⟨hin, ?_⟩
      rw [Bool.eq_false_iff]
      intro hc
      exact hnot (List.elem_iff.mp hc)
  · rfl

/-- C8: when no accessor can be constructed for the raw value,
`validate_dict` short-circuits the whole orchestration: no instance is
built, the failure is the single top-level `MalformedFailure` named
`"malformed"`, the remainders stay empty, and the result does not depend on
the declared fields at all (no per-field validation is performed). -/
theorem malformed_short_circuit
    (fields fields' : List (String × FieldSpec)) (ir ir' : Bool)
    (kf kf' : Option (String → String))
    (pd pd' : String → List (String × CVal) → List (String × CVal)) :
    validateDict fields .notDict ir kf pd =
      ⟨none, VFail.leaf "malformed"
        "Input of the validation suite is not like dictinoary.", []⟩ ∧
    validateDict fields .notDict ir kf pd =
      validateDict fields' .notDict ir' kf' pd' :=
  ⟨rfl, rfl⟩

theorem splitOnDot_nodot (a : List Char) (ha : ∀ c ∈ a, c ≠ '.') :
    splitOnDot a = [a] := by
  have := splitOnDot_append a [] [] [] ha (by simp [splitOnDot])
  simpa using this

theorem ofChars_ident (s : String) (hs : isIdent s = true) :
    ofChars s.data = [Sum.inl s] := by
  have hnd : ∀ c ∈ s.data, c ≠ '.' := ident_no_dot hs
  have hps : parseSegment s.data = [Sum.inl s] := by
    have := parseSegment_ident s hs [] (Or.inl rfl)
    simpa [parseBrackets, parseBracketsF] using this
  rw [ofChars, splitOnDot_nodot s.data hnd]
  simp [hps]

theorem ofChars_dotted (na nb : String) (hna : isIdent na = true)
    (hnb : isIdent nb = true) :
    ofChars ((na ++ "." ++ nb).data) = [Sum.inl na, Sum.inl nb] := by
  have hdata : (na ++ "." ++ nb).data = na.data ++ ('.' :: nb.data) := by
    simp [String.data_append]
  have hsplitb : splitOnDot nb.data = [nb.data] :=
    splitOnDot_nodot nb.data (ident_no_dot hnb)
  have hsplitdot : splitOnDot ('.' :: nb.data) = [] :: [nb.data] := by
    simp [splitOnDot, hsplitb]
  have hsplit : splitOnDot (na.data ++ ('.' :: nb.data)) =
      (na.data ++ []) :: [nb.data] :=
    splitOnDot_append na.data _ [] [nb.data] (ident_no_dot hna) hsplitdot
  have hpa : parseSegment na.data = [Sum.inl na] := by
    have := parseSegment_ident na hna [] (Or.inl rfl)
    simpa [parseBrackets, parseBracketsF] using this
  have hpb : parseSegment nb.data = [Sum.inl nb] := by
    have := parseSegment_ident nb hnb [] (Or.inl rfl)
    simpa [parseBrackets, parseBracketsF] using this
  rw [ofChars, hdata, hsplit]
  simp [hpa, hpb]

theorem lookupEntry_isEmpty_false {es : List (Seg × VFail)} {k : Seg}
    {g : VFail} (h : lookupEntry es k = some g) : es.isEmpty = false := by
  cases es
  · simp [lookupEntry] at h
  · rfl

/-- A single-identifier string key on a composite resolves through the parsed
one-segment path to the direct dictionary lookup. -/
theorem vfGet_single (fuel : Nat) (es : List (Seg × VFail)) (s : String)
    (hs : isIdent s = true) (g : VFail) (h : lookupEntry es (.inl s) = some g) :
    vfGet (fuel + 1) (.comp es) (.inl s) = some g := by
  have hne : es.isEmpty = false := lookupEntry_isEmpty_false h
  simp only [vfGet]
  rw [ofChars_ident s hs]
  simp only [compGetPath, hne, Bool.false_eq_true, if_false]
  rw [h]
  simp only [compGetLoop]

/-- C6: every composite failure tree that stores under field `a` a nested
composite storing a failure under field `b` exposes that failure both by
chained indexing (`failures["a"]["b"]`) and by a single dotted-path lookup
(`failures["a.b"]`), and the two accesses yield the same failure object. -/
theorem nested_failure_addressing (fuel : Nat) (es es' : List (Seg × VFail))
    (na nb : String) (f : VFail)
    (hna : isIdent na = true) (hnb : isIdent nb = true)
    (ha : lookupEntry es (.inl na) = some (.comp es'))
    (hb : lookupEntry es' (.inl nb) = some f) :
    vfGet (fuel + 2) (.comp es) (.inl (na ++ "." ++ nb)) = some f ∧
    vfGet (fuel + 2) (.comp es) (.inl na) = some (.comp es') ∧
    vfGet (fuel + 2) (.comp es') (.inl nb) = some f := by
  have hne : es.isEmpty = false := lookupEntry_isEmpty_false ha
  have hne' : es'.isEmpty = false := lookupEntry_isEmpty_false hb
  refine ⟨?_, vfGet_single _ es na hna _ ha, vfGet_single _ es' nb hnb f hb⟩
  simp only [vfGet]
  rw [ofChars_dotted na nb hna hnb]
  simp only [compGetPath, hne, Bool.false_eq_true, if_false]
  rw [ha]
  simp only [compGetLoop]
  have htr : vfTruthy (.comp es') = true := by
    simp [vfTruthy, hne']
  rw [if_pos htr]
  have hcont : vfContains (.comp es') (.inl nb) = true := by
    simp only [vfContains]
    rw [ofChars_ident nb hnb]
    simp only [compContainsPath]
    rw [hb]
  rw [if_pos hcont]
  rw [vfGet_single fuel es' nb hnb f hb]

/-- C6 witness: the two access styles on the concrete nested tree
`{a: {b: int-failure}}`. -/
theorem nested_failure_addressing_witness :
    isIdent "a" = true ∧ isIdent "b" = true ∧
    lookupEntry [(Sum.inl "a",
        VFail.comp [(Sum.inl "b", VFail.leaf "int" "Conversion failed.")])]
      (.inl "a") =
      some (.comp [(Sum.inl "b", VFail.leaf "int" "Conversion failed.")]) ∧
    (vfGet 2 (.comp [(Sum.inl "a",
        VFail.comp [(Sum.inl "b", VFail.leaf "int" "Conversion failed.")])])
      (.inl ("a" ++ "." ++ "b")) =
        some (VFail.leaf "int" "Conversion failed.") ∧
      vfGet 2 (.comp [(Sum.inl "a",
          VFail.comp [(Sum.inl "b", VFail.leaf "int" "Conversion failed.")])])
        (.inl "a") =
        some (.comp [(Sum.inl "b", VFail.leaf "int" "Conversion failed.")]) ∧
      vfGet 2 (.comp [(Sum.inl "b", VFail.leaf "int" "Conversion failed.")])
        (.inl "b") = some (VFail.leaf "int" "Conversion failed.")) :=
  ⟨by decide, by decide, rfl,
    nested_failure_addressing 0
      [(Sum.inl "a", VFail.comp [(Sum.inl "b", VFail.leaf "int" "Conversion failed.")])]
      [(Sum.inl "b", VFail.leaf "int" "Conversion failed.")]
      "a" "b" (VFail.leaf "int" "Conversion failed.")
      (by decide) (by decide) rfl rfl⟩

/-- C10 witness: a requirement whose null policy is `FAIL`, applied to a null
value, yields a non-null failure, and the continue flag is `false`. -/
theorem requirement_validate_fail_stops_witness :
    ((Requirement.mk .SKIP .FAIL .SKIP).validate .null
        ⟨false, false, false, false, [], true, false, none⟩).1.isSome = true ∧
    ((Requirement.mk .SKIP .FAIL .SKIP).validate .null
        ⟨false, false, false, false, [], true, false, none⟩).2 = false :=
  ⟨rfl, requirement_validate_fail_stops _ _ _ rfl⟩

end Dhampyr
